import Mathlib

/-!
Verification of the chunked/fixed-length HTTP request transport in
`util/net/http_transport_win.cc` (`HTTPTransportWin::ExecuteSynchronously`).

Bytes are modelled as `Nat` (ASCII codes where the source writes characters).
The chunk framer, the header-planning loop and the send/receive state
sequence are shallowly embedded from the source; the RFC 7230 chunked
decoder is the specification-side parse-back function.
-/

/-- ASCII carriage return, the byte the source stores for `'\r'`. -/
def CRb : Nat := 13

/-- ASCII line feed, the byte the source stores for `'\n'`. -/
def LFb : Nat := 10

/-- Lowercase hexadecimal digit character for a value `v < 16`, as produced
by `_snprintf` with format `%08x` (digits `0`-`9` then `a`-`f`). -/
def hexChar (v : Nat) : Nat :=
  if v < 10 then 48 + v else 87 + v

/-- Fixed-width big-endian hexadecimal rendering: `hexDigitsAux w n` is the
last `w` hex digits of `n`, zero padded, most significant first. -/
def hexDigitsAux : Nat → Nat → List Nat
  | 0, _ => []
  | w + 1, n => hexDigitsAux w (n / 16) ++ [hexChar (n % 16)]

/-- The 8-character `buf.size` field written by
`_snprintf(buf.size, sizeof(buf.size), "%08x", data_bytes_ui)`. -/
def hex8 (n : Nat) : List Nat := hexDigitsAux 8 n

/-- The loop `for (size_len = sizeof(buf.size); size_len > 1; --size_len)`
that skips leading zero digits: `sizeLenAux s l` checks `s[8 - l]` and
breaks at the first non-`'0'` digit, stopping at `1`. -/
def sizeLenAux (s : List Nat) : Nat → Nat
  | 0 => 1
  | 1 => 1
  | l + 2 => if s.getD (8 - (l + 2)) 0 ≠ 48 then l + 2 else sizeLenAux s (l + 1)

/-- The `size_len` value computed by the source for a rendered size field. -/
def sizeLen (s : List Nat) : Nat := sizeLenAux s 8

/-- The bytes of one chunked-mode wire write: the significant hex digits of
the size field (`write_start = buf.crlf0 - size_len`), the leading CRLF,
the `data_bytes` data bytes, and the trailing CRLF stored at
`buf.data[data_bytes]` / `buf.data[data_bytes + 1]`. -/
def frameChunk (d : List Nat) : List Nat :=
  let s := hex8 d.length
  s.drop (8 - sizeLen s) ++ [CRb, LFb] ++ d ++ [CRb, LFb]

/-- One iteration of the send loop distilled to its wire effect: in chunked
mode every read is framed and written; otherwise `write_start = buf.data`,
`write_size = data_bytes`, and a zero-size write is skipped
(`if (write_size != 0)`). -/
def iterWrite (chunked : Bool) (d : List Nat) : Option (List Nat) :=
  if chunked then some (frameChunk d)
  else if d.length ≠ 0 then some d else none

/-- Wire writes of the whole send loop over the successive reads returned by
`body_stream()->GetBytesBuffer`: the loop is a do/while that stops after
the first zero-length read (`while (data_bytes > 0)`). -/
def writesList (chunked : Bool) : List (List Nat) → List (List Nat)
  | [] => []
  | d :: rest =>
    (match iterWrite chunked d with
     | some w => [w]
     | none => []) ++
    (if d.length > 0 then writesList chunked rest else [])

/-- Concatenation of everything the chunked-mode send loop puts on the wire. -/
def chunkedWire (reads : List (List Nat)) : List Nat :=
  (writesList true reads).flatten

/-- Minimal-digit lowercase hexadecimal representation (specification side):
digit list of `n`, most significant first, no leading zeros, for `0 < n`.
The first argument is recursion fuel; any `fuel ≥ n` gives the value. -/
def minHexAux : Nat → Nat → List Nat
  | _, 0 => []
  | 0, _ + 1 => []
  | fuel + 1, n + 1 => minHexAux fuel ((n + 1) / 16) ++ [hexChar ((n + 1) % 16)]

/-- Minimal-digit lowercase hex representation of `n`, with at least one
digit (`"0"` for `n = 0`), following the specification text. -/
def minHex (n : Nat) : List Nat :=
  if n = 0 then [48] else minHexAux n n

/-- Recognizer for hexadecimal digit bytes, used by the parse-back decoder. -/
def isHexDigitB (c : Nat) : Bool :=
  (48 ≤ c && c ≤ 57) || (97 ≤ c && c ≤ 102) || (65 ≤ c && c ≤ 70)

/-- Numeric value of a hexadecimal digit byte. -/
def hexVal (c : Nat) : Nat :=
  if c ≤ 57 then c - 48 else if c ≤ 70 then c - 55 else c - 87

/-- Value of a big-endian string of hexadecimal digit bytes. -/
def hexValOfDigits (ds : List Nat) : Nat :=
  ds.foldl (fun acc c => acc * 16 + hexVal c) 0

/-- RFC 7230 §4.1 chunked-transfer decoder (specification side): repeatedly
parse `<hex-size> CRLF <data> CRLF`; a size of zero is the terminal chunk
and must be the end of the stream. The first argument is fuel. -/
def decodeChunks : Nat → List Nat → Option (List Nat)
  | 0, _ => none
  | fuel + 1, s =>
    let ds := s.takeWhile isHexDigitB
    let rest := s.dropWhile isHexDigitB
    if ds.isEmpty then none
    else
      match rest with
      | c :: l :: rest2 =>
        if c = CRb ∧ l = LFb then
          let n := hexValOfDigits ds
          if rest2.length < n then none
          else
            match rest2.drop n with
            | c2 :: l2 :: rest3 =>
              if c2 = CRb ∧ l2 = LFb then
                if n = 0 then (if rest3.isEmpty then some [] else none)
                else (decodeChunks fuel rest3).map (rest2.take n ++ ·)
              else none
            | _ => none
        else none
      | _ => none

/-- Decode a complete chunked body; fuel `length + 1` always suffices. -/
def decodeChunked (s : List Nat) : Option (List Nat) :=
  decodeChunks (s.length + 1) s

/-- Modelled from the spec: the constant `kContentLength` declared in
`util/net/http_transport.h` (not part of this file), the special header
name `"Content-Length"`. -/
def kContentLength : String := "Content-Length"

/-- Modelled from the spec: `base::StringToSizeT`, parsing a header value as
a non-negative integer (a non-empty string of decimal digits), failing on
anything else. -/
def stringToSizeT (s : String) : Option Nat :=
  if s.data ≠ [] ∧ s.data.all (fun c => 48 ≤ c.toNat && c.toNat ≤ 57) then
    some (s.data.foldl (fun acc c => acc * 10 + (c.toNat - 48)) 0)
  else none

/-- One forwarded literal header line, as built at the source:
`UTF8ToUTF16(pair.first) + L": " + UTF8ToUTF16(pair.second) + L"\r\n"`. -/
def headerLine (n v : String) : String := n ++ ": " ++ v ++ "\x0d\x0a"

/-- The synthesized `kTransferEncodingHeader` line. -/
def teLine : String := "Transfer-Encoding: chunked\x0d\x0a"

/-- The `for (const auto& pair : headers())` loop: a `Content-Length` entry
is consumed by `StringToSizeT` and sets `chunked` and `content_length`;
every other entry becomes a literal forwarded header line, in order. -/
def headerLoop : List (String × String) → Bool → Nat → Bool × Nat × List String
  | [], chunked, cl => (chunked, cl, [])
  | (n, v) :: rest, chunked, cl =>
    if n = kContentLength then
      match stringToSizeT v with
      | some m => headerLoop rest false m
      | none => headerLoop rest true cl
    else
      let r := headerLoop rest chunked cl
      (r.1, r.2.1, headerLine n v :: r.2.2)

/-- Header planning as the source performs it: the loop starting from
`chunked = true`, `content_length = 0`, followed by the addition of the
`Transfer-Encoding: chunked` line exactly when `chunked` remains set. -/
def headerPlan (hs : List (String × String)) : Bool × Nat × List String :=
  let r := headerLoop hs true 0
  (r.1, r.2.1, r.2.2 ++ if r.1 then [teLine] else [])

/-- Outcomes of the external WinHTTP collaborator calls and of the body
stream, abstracted per §6 of the specification: each flag tells whether the
corresponding call succeeds; `bodyReads` and `respReads` are the successive
results of `GetBytesBuffer` and `WinHttpReadData` (`none` = failure return). -/
structure WinEnv where
  sessionOk : Bool
  timeoutsOk : Bool
  crackOk : Bool
  connectOk : Bool
  openOk : Bool
  addOk : Bool
  sendOk : Bool
  writeOk : Bool
  receiveOk : Bool
  queryOk : Bool
  statusCode : Nat
  bodyReads : List (Option (List Nat))
  respReads : List (Option (List Nat))
deriving DecidableEq

/-- The send-body do/while loop: read, frame, write unless `write_size` is
zero, stop after the first zero-length read; `none` models a `return false`
(read failure, write failure, or a reader that never terminates). Returns
`total_written` on success. -/
def sendLoop (chunked writeOk : Bool) : List (Option (List Nat)) → Nat → Option Nat
  | [], _ => none
  | none :: _, _ => none
  | some d :: rest, total =>
    match iterWrite chunked d with
    | some w =>
      if writeOk then
        if d.length > 0 then sendLoop chunked writeOk rest (total + w.length)
        else some (total + w.length)
      else none
    | none =>
      if d.length > 0 then sendLoop chunked writeOk rest total
      else some total

/-- The response-body read loop: `response_body` is cleared, then each read
is appended until a zero-length read ends the stream; a failed read returns
`false` leaving the accumulated prefix in place. -/
def readLoop : List (Option (List Nat)) → List Nat → Bool × List Nat
  | [], acc => (false, acc)
  | none :: _, acc => (false, acc)
  | some b :: rest, acc =>
    if b.length = 0 then (true, acc) else readLoop rest (acc ++ b)

/-- Model of `HTTPTransportWin::ExecuteSynchronously`: the strict state sequence of
the source — session open, timeouts, URL crack, connect, open request,
header loop and additions, send, body loop, receive, status query, the
`status_code != 200` check, and only then the response-body read loop.
Returns the boolean result and the final contents of `response_body`. -/
def executeSynchronously (env : WinEnv) (hs : List (String × String))
    (body0 : Option (List Nat)) : Bool × Option (List Nat) :=
  if !env.sessionOk then (false, body0)
  else if !env.timeoutsOk then (false, body0)
  else if !env.crackOk then (false, body0)
  else if !env.connectOk then (false, body0)
  else if !env.openOk then (false, body0)
  else
    let plan := headerPlan hs
    if !plan.2.2.isEmpty && !env.addOk then (false, body0)
    else if !env.sendOk then (false, body0)
    else
      match sendLoop plan.1 env.writeOk env.bodyReads 0 with
      | none => (false, body0)
      | some _total =>
        if !env.receiveOk then (false, body0)
        else if !env.queryOk then (false, body0)
        else if env.statusCode ≠ 200 then (false, body0)
        else
          match body0 with
          | none => (true, none)
          | some _ =>
            let r := readLoop env.respReads []
            (r.1, some r.2)

/-- All the steps strictly before the clearing of `response_body` succeed,
status check included up to the query itself. -/
def stepsOk (env : WinEnv) (hs : List (String × String)) : Bool :=
  env.sessionOk && env.timeoutsOk && env.crackOk && env.connectOk &&
  env.openOk && ((headerPlan hs).2.2.isEmpty || env.addOk) && env.sendOk &&
  (sendLoop (headerPlan hs).1 env.writeOk env.bodyReads 0).isSome &&
  env.receiveOk && env.queryOk

/-- A fully successful environment used for concrete evaluations. -/
def envAllOk : WinEnv :=
  { sessionOk := true, timeoutsOk := true, crackOk := true, connectOk := true
    openOk := true, addOk := true, sendOk := true, writeOk := true
    receiveOk := true, queryOk := true, statusCode := 200
    bodyReads := [some []], respReads := [some []] }

/-- A byte is a lowercase hexadecimal digit character. -/
def isLowerHex (c : Nat) : Bool :=
  (48 ≤ c && c ≤ 57) || (97 ≤ c && c ≤ 102)

lemma hexChar_eq_48 {v : Nat} (h : v < 16) (h0 : hexChar v = 48) : v = 0 := by
  unfold hexChar at h0
  split at h0 <;> omega

lemma isLowerHex_hexChar {v : Nat} (h : v < 16) : isLowerHex (hexChar v) = true := by
  unfold hexChar isLowerHex
  split <;> simp <;> omega

lemma isHexDigitB_hexChar {v : Nat} (h : v < 16) : isHexDigitB (hexChar v) = true := by
  unfold hexChar isHexDigitB
  split <;> simp <;> omega

lemma hexVal_hexChar {v : Nat} (h : v < 16) : hexVal (hexChar v) = v := by
  unfold hexChar hexVal
  split <;> split <;> first | omega | (split <;> omega)

lemma hexDigitsAux_length : ∀ w n, (hexDigitsAux w n).length = w := by
  intro w
  induction w with
  | zero => intro n; rfl
  | succ w ih => intro n; simp [hexDigitsAux, ih]

lemma hexDigitsAux_zero : ∀ w, hexDigitsAux w 0 = List.replicate w 48 := by
  intro w
  induction w with
  | zero => rfl
  | succ w ih =>
    have h0 : hexChar (0 % 16) = 48 := by decide
    simp [hexDigitsAux, ih, h0, Nat.zero_div, List.replicate_succ']

lemma hexDigitsAux_mem : ∀ w n x, x ∈ hexDigitsAux w n → ∃ v, v < 16 ∧ x = hexChar v := by
  intro w
  induction w with
  | zero => intro n x hx; simp [hexDigitsAux] at hx
  | succ w ih =>
    intro n x hx
    simp only [hexDigitsAux, List.mem_append, List.mem_singleton] at hx
    rcases hx with hx | hx
    · exact ih _ x hx
    · exact ⟨n % 16, by omega, hx⟩

lemma minHexAux_fuel : ∀ f g n, n ≤ f → n ≤ g → minHexAux f n = minHexAux g n := by
  intro f
  induction f with
  | zero =>
    intro g n h h2
    have hn : n = 0 := by omega
    subst hn
    cases g <;> simp [minHexAux]
  | succ f ih =>
    intro g n h h2
    cases n with
    | zero => cases g <;> simp [minHexAux]
    | succ m =>
      cases g with
      | zero => omega
      | succ g2 =>
        simp only [minHexAux]
        have hdiv : (m + 1) / 16 < m + 1 := Nat.div_lt_self (Nat.succ_pos m) (by omega)
        rw [ih g2 ((m + 1) / 16) (by omega) (by omega)]

lemma hexValOfDigits_append_single (xs : List Nat) (c : Nat) :
    hexValOfDigits (xs ++ [c]) = hexValOfDigits xs * 16 + hexVal c := by
  unfold hexValOfDigits
  rw [List.foldl_append]
  rfl

lemma hexValOfDigits_minHexAux : ∀ f n, n ≤ f → hexValOfDigits (minHexAux f n) = n := by
  intro f
  induction f with
  | zero =>
    intro n h
    have hn : n = 0 := by omega
    subst hn
    simp [minHexAux, hexValOfDigits]
  | succ f ih =>
    intro n h
    cases n with
    | zero => simp [minHexAux, hexValOfDigits]
    | succ m =>
      simp only [minHexAux]
      have hdiv : (m + 1) / 16 < m + 1 := Nat.div_lt_self (Nat.succ_pos m) (by omega)
      rw [hexValOfDigits_append_single, ih _ (by omega),
        hexVal_hexChar (show (m + 1) % 16 < 16 by omega)]
      omega

lemma minHexAux_head : ∀ f n, 0 < n → n ≤ f → ∃ c cs, minHexAux f n = c :: cs ∧ c ≠ 48 := by
  intro f
  induction f with
  | zero => intro n h h2; omega
  | succ f ih =>
    intro n h h2
    cases n with
    | zero => omega
    | succ m =>
      simp only [minHexAux]
      by_cases hq : (m + 1) / 16 = 0
      · rw [hq]
        refine ⟨hexChar ((m + 1) % 16), [], by simp [minHexAux], ?_⟩
        intro hc
        have h16 : (m + 1) % 16 < 16 := by omega
        have := hexChar_eq_48 h16 hc
        omega
      · have hdiv : (m + 1) / 16 < m + 1 := Nat.div_lt_self (Nat.succ_pos m) (by omega)
        obtain ⟨c, cs, heq, hne⟩ := ih ((m + 1) / 16) (by omega) (by omega)
        rw [heq]
        exact ⟨c, cs ++ [hexChar ((m + 1) % 16)], rfl, hne⟩

lemma minHexAux_mem : ∀ f n x, x ∈ minHexAux f n → ∃ v, v < 16 ∧ x = hexChar v := by
  intro f
  induction f with
  | zero => intro n x hx; cases n <;> simp [minHexAux] at hx
  | succ f ih =>
    intro n x hx
    cases n with
    | zero => simp [minHexAux] at hx
    | succ m =>
      simp only [minHexAux, List.mem_append, List.mem_singleton] at hx
      rcases hx with hx | hx
      · exact ih _ x hx
      · exact ⟨(m + 1) % 16, by omega, hx⟩

lemma hexDigitsAux_pad : ∀ w n f, 0 < n → n < 16 ^ w → n ≤ f →
    hexDigitsAux w n = List.replicate (w - (minHexAux f n).length) 48 ++ minHexAux f n ∧
    (minHexAux f n).length ≤ w := by
  intro w
  induction w with
  | zero => intro n f h hw _; simp at hw; omega
  | succ w ih =>
    intro n f h hw hf
    cases n with
    | zero => omega
    | succ m =>
      cases f with
      | zero => omega
      | succ g =>
        have hdiv : (m + 1) / 16 < m + 1 := Nat.div_lt_self (Nat.succ_pos m) (by omega)
        simp only [hexDigitsAux, minHexAux]
        by_cases hq : (m + 1) / 16 = 0
        · rw [hq, hexDigitsAux_zero]
          constructor
          · simp [minHexAux]
          · simp [minHexAux]
        · have hpow : (16 : Nat) ^ (w + 1) = 16 ^ w * 16 := pow_succ 16 w
          have hq16 : (m + 1) / 16 < 16 ^ w :=
            (Nat.div_lt_iff_lt_mul (show 0 < 16 by omega)).mpr (by omega)
          obtain ⟨hpad, hle⟩ := ih ((m + 1) / 16) g (by omega) hq16 (by omega)
          constructor
          · rw [hpad]
            simp only [List.length_append, List.length_singleton]
            rw [show w + 1 - ((minHexAux g ((m + 1) / 16)).length + 1) =
                  w - (minHexAux g ((m + 1) / 16)).length by omega]
            simp
          · simp only [List.length_append, List.length_singleton]
            omega

lemma sizeLenAux_step (s : List Nat) (l : Nat) :
    sizeLenAux s (l + 2) =
      if s.getD (8 - (l + 2)) 0 ≠ 48 then l + 2 else sizeLenAux s (l + 1) := by
  simp [sizeLenAux]

lemma sizeLenAux_bounds (s : List Nat) : ∀ l, 1 ≤ l → 1 ≤ sizeLenAux s l ∧ sizeLenAux s l ≤ l := by
  intro l
  induction l with
  | zero => omega
  | succ l ih =>
    intro _
    cases l with
    | zero => simp [sizeLenAux]
    | succ m =>
      rw [sizeLenAux_step]
      split
      · omega
      · have := ih (by omega)
        omega

lemma sizeLen_bounds (s : List Nat) : 1 ≤ sizeLen s ∧ sizeLen s ≤ 8 :=
  sizeLenAux_bounds s 8 (by omega)

lemma getD_pad_lt : ∀ k i, i < k → ∀ (c : Nat) (cs : List Nat),
    (List.replicate k 48 ++ c :: cs).getD i 0 = 48 := by
  intro k
  induction k with
  | zero => omega
  | succ k ih =>
    intro i hi c cs
    cases i with
    | zero => rfl
    | succ j =>
      rw [List.replicate_succ]
      simpa using ih j (by omega) c cs

lemma getD_pad_eq : ∀ k (c : Nat) (cs : List Nat),
    (List.replicate k 48 ++ c :: cs).getD k 0 = c := by
  intro k
  induction k with
  | zero => intro c cs; rfl
  | succ k ih =>
    intro c cs
    rw [List.replicate_succ]
    simpa using ih c cs

lemma sizeLenAux_pad : ∀ l k (c : Nat) (cs : List Nat), k + (c :: cs).length = 8 → c ≠ 48 →
    8 - (l + 1) ≤ k → l + 1 ≤ 8 →
    sizeLenAux (List.replicate k 48 ++ c :: cs) (l + 1) = 8 - k := by
  intro l
  induction l with
  | zero =>
    intro k c cs hlen hc hk _
    simp only [List.length_cons] at hlen
    have : k = 7 := by omega
    subst this
    simp [sizeLenAux]
  | succ l ih =>
    intro k c cs hlen hc hk hl
    have hlen2 : k + (cs.length + 1) = 8 := by simpa using hlen
    rw [show l + 1 + 1 = l + 2 by omega, sizeLenAux_step]
    by_cases hik : 8 - (l + 2) = k
    · rw [hik, getD_pad_eq]
      simp only [ne_eq, hc, not_false_eq_true, if_true]
      omega
    · have hlt : 8 - (l + 2) < k := by omega
      rw [getD_pad_lt k (8 - (l + 2)) hlt c cs]
      simp only [ne_eq, not_true_eq_false, if_false]
      exact ih k c cs hlen hc (by omega) (by omega)

lemma sizeLen_pad (k : Nat) (c : Nat) (cs : List Nat) (hlen : k + (c :: cs).length = 8)
    (hc : c ≠ 48) : sizeLen (List.replicate k 48 ++ c :: cs) = (c :: cs).length := by
  have h := sizeLenAux_pad 7 k c cs hlen hc (by omega) (by omega)
  simp only [List.length_cons] at hlen ⊢
  rw [sizeLen, show (8 : Nat) = 7 + 1 by omega, h]
  omega

/-- The trimmed size field equals the minimal-digit lowercase hexadecimal
representation: the bridge between the `%08x`-and-skip-zeros rendering of
the source and the specification wording. -/
lemma trim_eq_minHex {n : Nat} (h : n < 16 ^ 8) :
    (hex8 n).drop (8 - sizeLen (hex8 n)) = minHex n := by
  by_cases h0 : n = 0
  · subst h0; decide
  · obtain ⟨c, cs, hm, hc⟩ := minHexAux_head n n (by omega) le_rfl
    obtain ⟨hpad, hle⟩ := hexDigitsAux_pad 8 n n (by omega) h le_rfl
    rw [hm] at hpad hle
    rw [minHex, if_neg h0, hm]
    rw [show hex8 n = hexDigitsAux 8 n from rfl, hpad]
    rw [sizeLen_pad (8 - (c :: cs).length) c cs (by simp only [List.length_cons] at hle ⊢; omega) hc]
    rw [List.drop_left' (by simp)]

lemma minHex_value {n : Nat} : hexValOfDigits (minHex n) = n := by
  by_cases h0 : n = 0
  · subst h0; decide
  · rw [minHex, if_neg h0]
    exact hexValOfDigits_minHexAux n n le_rfl

lemma minHex_ne_nil (n : Nat) : minHex n ≠ [] := by
  by_cases h0 : n = 0
  · subst h0; decide
  · rw [minHex, if_neg h0]
    obtain ⟨c, cs, hm, _⟩ := minHexAux_head n n (by omega) le_rfl
    simp [hm]

lemma minHex_all_hex (n : Nat) : ∀ x ∈ minHex n, isHexDigitB x = true := by
  intro x hx
  by_cases h0 : n = 0
  · subst h0; simp [minHex] at hx; subst hx; decide
  · rw [minHex, if_neg h0] at hx
    obtain ⟨v, hv, hxe⟩ := minHexAux_mem n n x hx
    subst hxe
    exact isHexDigitB_hexChar hv

/-- The chunk frame, rewritten through the trim bridge. -/
lemma frameChunk_eq {d : List Nat} (h : d.length < 16 ^ 8) :
    frameChunk d = minHex d.length ++ [CRb, LFb] ++ d ++ [CRb, LFb] := by
  simp only [frameChunk]
  rw [trim_eq_minHex h]

/-- Decoding one emitted frame: the decoder consumes exactly the frame of
`d`; a non-terminal frame prepends `d` and continues on the remaining
input, the terminal frame requires the input to end. -/
lemma decodeChunks_frame (fuel : Nat) (d tail : List Nat) (hd : d.length < 16 ^ 8) :
    decodeChunks (fuel + 1) (frameChunk d ++ tail) =
      if d.length = 0 then (if tail.isEmpty then some [] else none)
      else (decodeChunks fuel tail).map (fun r => d ++ r) := by
  have harr : frameChunk d ++ tail =
      minHex d.length ++ (CRb :: LFb :: (d ++ CRb :: LFb :: tail)) := by
    rw [frameChunk_eq hd]
    simp
  rw [harr]
  simp only [decodeChunks]
  rw [List.takeWhile_append_of_pos (minHex_all_hex d.length),
    List.dropWhile_append_of_pos (minHex_all_hex d.length),
    List.takeWhile_cons_of_neg (by decide), List.dropWhile_cons_of_neg (by decide)]
  simp only [List.append_nil]
  rw [if_neg (by simpa [List.isEmpty_iff] using minHex_ne_nil d.length)]
  simp only [minHex_value]
  rw [if_pos (⟨trivial, trivial⟩ : True ∧ True)]
  rw [if_neg (show ¬ (d ++ CRb :: LFb :: tail).length < d.length by simp)]
  rw [List.drop_left, List.take_left]
  simp

lemma hex8_length (n : Nat) : (hex8 n).length = 8 := hexDigitsAux_length 8 n

lemma frameChunk_length (d : List Nat) :
    (frameChunk d).length = sizeLen (hex8 d.length) + 2 + d.length + 2 := by
  have hb := sizeLen_bounds (hex8 d.length)
  have hlen := hex8_length d.length
  simp only [frameChunk, List.length_append, List.length_drop, List.length_cons,
    List.length_nil, hlen]
  omega

lemma frameChunk_ne_terminal {d : List Nat} (hd : d ≠ []) : frameChunk d ≠ frameChunk [] := by
  intro he
  have h1 := frameChunk_length d
  have h0 : (frameChunk ([] : List Nat)).length = 5 := by decide
  have hb := sizeLen_bounds (hex8 d.length)
  have hdl : 0 < d.length := List.length_pos.mpr hd
  rw [he, h0] at h1
  omega

lemma chunkedWire_cons {d : List Nat} (mids : List (List Nat)) (hd : d ≠ []) :
    chunkedWire (d :: mids) = frameChunk d ++ chunkedWire mids := by
  have hdl : 0 < d.length := List.length_pos.mpr hd
  simp [chunkedWire, writesList, iterWrite, hdl]

lemma writesList_true_eq : ∀ mids : List (List Nat), (∀ d ∈ mids, d ≠ []) →
    writesList true (mids ++ [[]]) = mids.map frameChunk ++ [frameChunk []] := by
  intro mids
  induction mids with
  | nil => intro _; simp [writesList, iterWrite]
  | cons d rest ih =>
    intro h
    have hd : d ≠ [] := h d (List.mem_cons_self d rest)
    have hdl : 0 < d.length := List.length_pos.mpr hd
    simp [writesList, iterWrite, hdl, ih (fun x hx => h x (List.mem_cons_of_mem _ hx))]

lemma writesList_false_eq : ∀ mids : List (List Nat), (∀ d ∈ mids, d ≠ []) →
    writesList false (mids ++ [[]]) = mids := by
  intro mids
  induction mids with
  | nil => intro _; simp [writesList, iterWrite]
  | cons d rest ih =>
    intro h
    have hd : d ≠ [] := h d (List.mem_cons_self d rest)
    have hdl : 0 < d.length := List.length_pos.mpr hd
    simp [writesList, iterWrite, hdl, Nat.pos_iff_ne_zero.mp hdl,
      ih (fun x hx => h x (List.mem_cons_of_mem _ hx))]

lemma decode_wire : ∀ (mids : List (List Nat)) (fuel : Nat),
    (∀ d ∈ mids, d ≠ [] ∧ d.length ≤ 32768) → mids.length < fuel →
    decodeChunks fuel (chunkedWire (mids ++ [[]])) = some mids.flatten := by
  have h16 : (16 : Nat) ^ 8 = 4294967296 := by norm_num
  intro mids
  induction mids with
  | nil =>
    intro fuel _ hf
    cases fuel with
    | zero => omega
    | succ f =>
      have hbase : chunkedWire ([[]] : List (List Nat)) = frameChunk [] ++ [] := by
        simp [chunkedWire, writesList, iterWrite]
      rw [List.nil_append, hbase, decodeChunks_frame f [] [] (by rw [h16]; simp)]
      simp
  | cons d rest ih =>
    intro fuel h hf
    cases fuel with
    | zero => omega
    | succ f =>
      obtain ⟨hd, hcap⟩ := h d (List.mem_cons_self d _)
      rw [List.cons_append, chunkedWire_cons _ hd,
        decodeChunks_frame f d _ (by rw [h16]; omega)]
      rw [if_neg (by simpa [List.length_eq_zero] using hd)]
      rw [ih f (fun x hx => h x (List.mem_cons_of_mem _ hx)) (by simpa using hf)]
      simp

lemma chunkedWire_length : ∀ mids : List (List Nat), (∀ d ∈ mids, d ≠ []) →
    mids.length < (chunkedWire (mids ++ [[]])).length + 1 := by
  intro mids
  induction mids with
  | nil => intro _; simp
  | cons d rest ih =>
    intro h
    rw [List.cons_append, chunkedWire_cons _ (h d (List.mem_cons_self d _))]
    have h4 : 4 ≤ (frameChunk d).length := by
      have := frameChunk_length d
      omega
    have := ih (fun x hx => h x (List.mem_cons_of_mem _ hx))
    simp only [List.length_append, List.length_cons]
    omega

/-- C1: for every body delivered by the Body Reader as a sequence of reads
(intermediate reads non-empty and at most the 32 KiB buffer capacity, the
final read of size 0), the concatenation of all bytes the chunked-mode send
loop writes, decoded as RFC 7230 chunked transfer encoding, yields exactly
the original body bytes; the writes contain the terminal zero-length chunk
exactly once, as the final frame. -/
theorem chunked_roundtrip (mids : List (List Nat))
    (h : ∀ d ∈ mids, d ≠ [] ∧ d.length ≤ 32768) :
    decodeChunked (chunkedWire (mids ++ [[]])) = some (mids ++ [[]]).flatten ∧
    (writesList true (mids ++ [[]])).count (frameChunk []) = 1 ∧
    (writesList true (mids ++ [[]])).getLast? = some (frameChunk []) := by
  refine ⟨?_, ?_, ?_⟩
  · rw [decodeChunked,
      decode_wire mids _ h (chunkedWire_length mids (fun d hd => (h d hd).1))]
    simp
  · rw [writesList_true_eq mids (fun d hd => (h d hd).1), List.count_append]
    have h0 : (mids.map frameChunk).count (frameChunk []) = 0 := by
      rw [List.count_eq_zero]
      intro hmem
      obtain ⟨d, hd, he⟩ := List.mem_map.mp hmem
      exact frameChunk_ne_terminal (h d hd).1 he
    rw [h0, List.count_singleton_self]
  · rw [writesList_true_eq mids (fun d hd => (h d hd).1)]
    exact List.getLast?_concat _

/-- C1 witness at a concrete two-read body. -/
theorem chunked_roundtrip_witness :
    (∀ d ∈ [[65, 66], [67]], d ≠ ([] : List Nat) ∧ d.length ≤ 32768) ∧
    (decodeChunked (chunkedWire ([[65, 66], [67]] ++ [[]])) =
        some ([[65, 66], [67]] ++ [[]]).flatten ∧
      (writesList true ([[65, 66], [67]] ++ [[]])).count (frameChunk []) = 1 ∧
      (writesList true ([[65, 66], [67]] ++ [[]])).getLast? = some (frameChunk [])) :=
  ⟨by decide, chunked_roundtrip [[65, 66], [67]] (by decide)⟩

/-- C2: for every read length `n ≤ 32768`, the size field is rendered as
exactly 8 lowercase hexadecimal digits; after the leading-zero trim it
equals the minimal-digit lowercase hex representation of `n`; and the
single wire write of the chunk has exactly
(significant digits) + 2 + `n` + 2 bytes. -/
theorem chunk_size_field (d : List Nat) (h : d.length ≤ 32768) :
    (hex8 d.length).length = 8 ∧
    (∀ c ∈ hex8 d.length, isLowerHex c = true) ∧
    (hex8 d.length).drop (8 - sizeLen (hex8 d.length)) = minHex d.length ∧
    (frameChunk d).length = (minHex d.length).length + 2 + d.length + 2 := by
  have h16 : (16 : Nat) ^ 8 = 4294967296 := by norm_num
  have hlt : d.length < 16 ^ 8 := by rw [h16]; omega
  refine ⟨hex8_length _, ?_, trim_eq_minHex hlt, ?_⟩
  · intro c hc
    obtain ⟨v, hv, he⟩ := hexDigitsAux_mem 8 d.length c hc
    subst he
    exact isLowerHex_hexChar hv
  · have hfl := frameChunk_length d
    have hsl : sizeLen (hex8 d.length) = (minHex d.length).length := by
      have ht := trim_eq_minHex hlt
      have hlen : (hex8 d.length).length = 8 := hex8_length _
      have hb := sizeLen_bounds (hex8 d.length)
      calc sizeLen (hex8 d.length)
          = ((hex8 d.length).drop (8 - sizeLen (hex8 d.length))).length := by
            rw [List.length_drop, hlen]; omega
        _ = (minHex d.length).length := by rw [ht]
    omega

/-- C2 witness at a concrete 3-byte read. -/
theorem chunk_size_field_witness :
    ([7, 8, 9] : List Nat).length ≤ 32768 ∧
    ((hex8 ([7, 8, 9] : List Nat).length).length = 8 ∧
      (∀ c ∈ hex8 ([7, 8, 9] : List Nat).length, isLowerHex c = true) ∧
      (hex8 ([7, 8, 9] : List Nat).length).drop
          (8 - sizeLen (hex8 ([7, 8, 9] : List Nat).length)) =
        minHex ([7, 8, 9] : List Nat).length ∧
      (frameChunk [7, 8, 9]).length =
        (minHex ([7, 8, 9] : List Nat).length).length + 2 + ([7, 8, 9] : List Nat).length + 2) :=
  ⟨by decide, chunk_size_field [7, 8, 9] (by decide)⟩

/-- C3: in chunked mode a zero-length read still produces a wire write whose
bytes are exactly `0 CR LF CR LF`, while in fixed-length mode a zero-length
read writes nothing. -/
theorem terminal_chunk_write :
    iterWrite true [] = some [48, 13, 10, 13, 10] ∧ iterWrite false [] = none := by
  decide

/-- C4: in fixed-length mode every non-empty read passes through unchanged,
a zero-length read produces no wire write, and the sizes of all writes sum
to the declared Content-Length when the reader delivers exactly that many
bytes. -/
theorem fixed_length_passthrough (mids : List (List Nat)) (cl : Nat)
    (h : ∀ d ∈ mids, d ≠ []) (hcl : mids.flatten.length = cl) :
    (∀ d : List Nat, d ≠ [] → iterWrite false d = some d) ∧
    iterWrite false [] = none ∧
    writesList false (mids ++ [[]]) = mids ∧
    ((writesList false (mids ++ [[]])).map List.length).sum = cl := by
  refine ⟨?_, by decide, writesList_false_eq mids h, ?_⟩
  · intro d hd
    simp [iterWrite, hd]
  · rw [writesList_false_eq mids h, ← hcl, ← List.length_flatten]

/-- C4 witness at a concrete two-read body with Content-Length 3. -/
theorem fixed_length_passthrough_witness :
    (∀ d ∈ [[1, 2], [3]], d ≠ ([] : List Nat)) ∧
    ([[1, 2], [3]] : List (List Nat)).flatten.length = 3 ∧
    ((∀ d : List Nat, d ≠ [] → iterWrite false d = some d) ∧
      iterWrite false [] = none ∧
      writesList false ([[1, 2], [3]] ++ [[]]) = [[1, 2], [3]] ∧
      ((writesList false ([[1, 2], [3]] ++ [[]])).map List.length).sum = 3) :=
  ⟨by decide, by decide, fixed_length_passthrough [[1, 2], [3]] 3 (by decide) (by decide)⟩

lemma headerLoop_lines : ∀ (hs : List (String × String)) (c : Bool) (cl : Nat),
    (headerLoop hs c cl).2.2 =
      (hs.filter (fun p => p.1 ≠ kContentLength)).map (fun p => headerLine p.1 p.2) := by
  intro hs
  induction hs with
  | nil => intro c cl; rfl
  | cons p rest ih =>
    intro c cl
    obtain ⟨n, v⟩ := p
    by_cases hn : n = kContentLength
    · subst hn
      simp only [headerLoop, if_pos rfl]
      cases hv : stringToSizeT v <;> simp [ih, List.filter_cons]
    · simp [headerLoop, hn, ih, List.filter_cons]

lemma headerLoop_state_no_cl : ∀ (hs : List (String × String)), (∀ p ∈ hs, p.1 ≠ kContentLength) →
    ∀ c cl, (headerLoop hs c cl).1 = c ∧ (headerLoop hs c cl).2.1 = cl := by
  intro hs
  induction hs with
  | nil => intro _ c cl; exact ⟨rfl, rfl⟩
  | cons p rest ih =>
    intro h c cl
    obtain ⟨n, v⟩ := p
    have hn : n ≠ kContentLength := h (n, v) (List.mem_cons_self _ _)
    simp only [headerLoop, if_neg hn]
    exact ih (fun x hx => h x (List.mem_cons_of_mem _ hx)) c cl

lemma headerLoop_state_cl : ∀ (pre post : List (String × String)) (v : String) (m : Nat),
    (∀ p ∈ post, p.1 ≠ kContentLength) → stringToSizeT v = some m →
    ∀ c cl, (headerLoop (pre ++ (kContentLength, v) :: post) c cl).1 = false ∧
      (headerLoop (pre ++ (kContentLength, v) :: post) c cl).2.1 = m := by
  intro pre
  induction pre with
  | nil =>
    intro post v m hpost hv c cl
    simp only [List.nil_append, headerLoop, if_pos rfl, hv]
    exact headerLoop_state_no_cl post hpost false m
  | cons p rest ih =>
    intro post v m hpost hv c cl
    obtain ⟨n, w⟩ := p
    by_cases hn : n = kContentLength
    · subst hn
      simp only [List.cons_append, headerLoop, if_pos rfl]
      cases hw : stringToSizeT w
      · exact ih post v m hpost hv true cl
      · exact ih post v m hpost hv false _
    · simp only [List.cons_append, headerLoop, if_neg hn]
      exact ih post v m hpost hv c cl

/-- C5: a `Content-Length` entry is intercepted, never forwarded as a
literal header line; every other entry is forwarded as a literal
`Name: Value` line; when no `Content-Length` entry is present, chunked mode
is selected and exactly one synthesized `Transfer-Encoding: chunked` line
is appended; when the (unique trailing) `Content-Length` value parses, the
FixedLength mode with that byte count is selected. -/
theorem header_planning (hs : List (String × String)) :
    ((headerPlan hs).2.2 =
      (hs.filter (fun p => p.1 ≠ kContentLength)).map (fun p => headerLine p.1 p.2) ++
        (if (headerPlan hs).1 then [teLine] else [])) ∧
    ((∀ p ∈ hs, p.1 ≠ kContentLength) → (headerPlan hs).1 = true) ∧
    (∀ pre post v m, hs = pre ++ (kContentLength, v) :: post →
      (∀ p ∈ post, p.1 ≠ kContentLength) → stringToSizeT v = some m →
      (headerPlan hs).1 = false ∧ (headerPlan hs).2.1 = m) := by
  refine ⟨?_, ?_, ?_⟩
  · simp only [headerPlan, headerLoop_lines hs true 0]
  · intro h
    simp only [headerPlan]
    exact (headerLoop_state_no_cl hs h true 0).1
  · intro pre post v m he hpost hv
    subst he
    simp only [headerPlan]
    exact headerLoop_state_cl pre post v m hpost hv true 0

/-- C5 witness: one Content-Length entry plus one ordinary entry. -/
theorem header_planning_witness :
    (headerPlan [(kContentLength, "10"), ("X", "y")]).1 = false ∧
    (headerPlan [(kContentLength, "10"), ("X", "y")]).2.1 = 10 :=
  (header_planning [(kContentLength, "10"), ("X", "y")]).2.2 [] [("X", "y")] "10" 10 rfl
    (by decide) (by decide)

/-- C6 counterexample: a header named `content-length` is not intercepted —
chunked mode stays selected and the entry is forwarded as a literal line,
refuting the claimed case-insensitive match at this input. -/
theorem content_length_case_cex :
    ¬ ((headerPlan [("content-length", "10")]).1 = false ∧
       headerLine "content-length" "10" ∉ (headerPlan [("content-length", "10")]).2.2) := by
  decide

/-- C6 amended: the interception rule fires only when the header name
equals `Content-Length` exactly (case-sensitively, `pair.first ==
kContentLength`); an entry with any other name, including a differently
cased `content-length`, is forwarded as a literal line and leaves the mode
chunked. -/
theorem content_length_exact_match (n v : String) :
    ((headerPlan [(n, v)]).1 = false ↔ n = kContentLength ∧ (stringToSizeT v).isSome) ∧
    (n ≠ kContentLength → (headerPlan [(n, v)]).2.2 = [headerLine n v, teLine]) := by
  constructor
  · by_cases hn : n = kContentLength
    · subst hn
      cases hv : stringToSizeT v <;>
        simp [headerPlan, headerLoop, hv]
    · simp [headerPlan, headerLoop, hn]
  · intro hn
    simp [headerPlan, headerLoop, hn]

/-- C6 amended witness: at name `content-length` the rule does not fire. -/
theorem content_length_exact_match_witness :
    ¬ (headerPlan [("content-length", "10")]).1 = false ∧
    (headerPlan [("content-length", "10")]).2.2 =
      [headerLine "content-length" "10", teLine] :=
  ⟨fun h =>
      absurd ((content_length_exact_match "content-length" "10").1.mp h).1 (by decide),
    (content_length_exact_match "content-length" "10").2 (by decide)⟩

/-- C7: at the failing input — a `Content-Length` value that does not parse
as a non-negative integer — the code does not abort: the plan silently
falls back to chunked mode (the `DCHECK(!chunked)` assertion is disabled in
release builds) and the full network exchange proceeds to success. -/
theorem malformed_content_length_proceeds :
    (headerPlan [(kContentLength, "abc")]).1 = true ∧
    executeSynchronously envAllOk [(kContentLength, "abc")] (some [1]) = (true, some []) := by
  decide

/-- The executor in one step: the result is the outcome of the read loop when
every prior step succeeds and the status is exactly 200, and a failure with
`response_body` untouched otherwise. -/
lemma executeSynchronously_eq (env : WinEnv) (hs : List (String × String)) (b : List Nat) :
    executeSynchronously env hs (some b) =
      if stepsOk env hs && (env.statusCode == 200)
      then ((readLoop env.respReads []).1, some (readLoop env.respReads []).2)
      else (false, some b) := by
  unfold executeSynchronously stepsOk
  cases h1 : env.sessionOk
  · simp
  cases h2 : env.timeoutsOk
  · simp
  cases h3 : env.crackOk
  · simp
  cases h4 : env.connectOk
  · simp
  cases h5 : env.openOk
  · simp
  simp only [Bool.not_true, Bool.false_and, Bool.true_and, if_false]
  cases h6 : (headerPlan hs).2.2.isEmpty <;> cases h7 : env.addOk <;>
    cases h8 : env.sendOk <;> simp_all
  all_goals (cases h9 : sendLoop (headerPlan hs).1 env.writeOk env.bodyReads 0 <;> simp_all)
  all_goals (cases h10 : env.receiveOk <;> cases h11 : env.queryOk <;> simp_all)

/-- C8: when every step through the status query succeeds and the response
body is readable to end of stream, `ExecuteSynchronously` returns success
exactly when the numeric HTTP status equals 200. -/
theorem success_iff_status_200 (env : WinEnv) (hs : List (String × String)) (b : List Nat)
    (hsteps : stepsOk env hs = true) (hread : (readLoop env.respReads []).1 = true) :
    (executeSynchronously env hs (some b)).1 = true ↔ env.statusCode = 200 := by
  rw [executeSynchronously_eq]
  by_cases hst : env.statusCode = 200 <;> simp [hsteps, hst, hread]

/-- C8 witness: with every collaborator succeeding and status 200, the call
returns success. -/
theorem success_iff_status_200_witness :
    stepsOk envAllOk [] = true ∧ (readLoop envAllOk.respReads []).1 = true ∧
    ((executeSynchronously envAllOk [] (some [1])).1 = true ↔ envAllOk.statusCode = 200) :=
  ⟨by decide, by decide, success_iff_status_200 envAllOk [] [1] (by decide) (by decide)⟩

/-- C9: whenever the call fails at or before status validation — any step
failure, or a status other than 200 — the `response_body` of the caller is
returned exactly as it was at entry: it is cleared and written only after
the 200 check passes. -/
theorem response_body_untouched (env : WinEnv) (hs : List (String × String)) (b : List Nat)
    (h : ¬ (stepsOk env hs = true ∧ env.statusCode = 200)) :
    executeSynchronously env hs (some b) = (false, some b) := by
  rw [executeSynchronously_eq]
  rw [if_neg]
  intro hc
  rcases Bool.and_eq_true .. |>.mp hc with ⟨hs1, hs2⟩
  exact h ⟨hs1, by simpa using hs2⟩

/-- C9 witness: a 404 status leaves the entry value of `response_body`
untouched even though a body is readable. -/
theorem response_body_untouched_witness :
    ¬ (stepsOk { envAllOk with statusCode := 404 } [] = true ∧
        ({ envAllOk with statusCode := 404 } : WinEnv).statusCode = 200) ∧
    executeSynchronously { envAllOk with statusCode := 404 } [] (some [7]) =
      (false, some [7]) :=
  ⟨by decide, response_body_untouched { envAllOk with statusCode := 404 } [] [7] (by decide)⟩

/-- Byte offset of `buf.size` within the chunk buffer struct. -/
def bufSizeOff : Nat := 0

/-- Byte offset of `buf.crlf0`, directly after the 8 size digits. -/
def bufCrlf0Off : Nat := 8

/-- Byte offset of `buf.data`, directly after `buf.crlf0`. -/
def bufDataOff : Nat := 10

/-- Byte offset of `buf.crlf1`, directly after the 32 KiB data region. -/
def bufCrlf1Off : Nat := 10 + 32 * 1024

/-- Total size of the buffer struct; the `static_assert` states it has no
padding, so the fields are contiguous. -/
def bufTotal : Nat := 8 + 2 + 32 * 1024 + 2

/-- Every byte offset the chunked framer stores into for a read of `d`
bytes: the 8 size digits, the two `crlf0` bytes, the `d` data bytes filled
by the reader, and the trailing CR and LF stored at `buf.data[d]` and
`buf.data[d + 1]`. -/
def frameStores (d : Nat) : List Nat :=
  ((List.range 8).map (fun i => bufSizeOff + i)) ++
    [bufCrlf0Off, bufCrlf0Off + 1] ++
    ((List.range d).map (fun i => bufDataOff + i)) ++
    [bufDataOff + d, bufDataOff + d + 1]

/-- C10: for every read length `d ≤ 32768` all framer stores stay inside
the buffer; at `d = 32768` the trailing CR and LF land exactly on the
`crlf1` field, which is contiguous with the data field since the struct
has no padding. -/
theorem chunk_buffer_bounds (d : Nat) (h : d ≤ 32768) :
    (∀ o ∈ frameStores d, o < bufTotal) ∧
    bufTotal = 8 + 2 + 32768 + 2 ∧
    (d = 32768 → bufDataOff + d = bufCrlf1Off ∧ bufDataOff + d + 1 = bufCrlf1Off + 1) := by
  refine ⟨?_, by decide, ?_⟩
  · intro o ho
    simp only [frameStores, bufSizeOff, bufCrlf0Off, bufDataOff, bufTotal,
      List.mem_append, List.mem_map, List.mem_range, List.mem_cons,
      List.mem_singleton, List.not_mem_nil, or_false] at ho
    simp only [bufTotal]
    rcases ho with ⟨i, hi, rfl⟩ | rfl | rfl | ⟨i, hi, rfl⟩ | rfl | rfl <;> omega
  · intro hd
    subst hd
    decide

/-- C10 witness at a concrete read length. -/
theorem chunk_buffer_bounds_witness :
    (3 : Nat) ≤ 32768 ∧
    ((∀ o ∈ frameStores 3, o < bufTotal) ∧
      bufTotal = 8 + 2 + 32768 + 2 ∧
      ((3 : Nat) = 32768 → bufDataOff + 3 = bufCrlf1Off ∧ bufDataOff + 3 + 1 = bufCrlf1Off + 1)) :=
  ⟨by decide, chunk_buffer_bounds 3 (by decide)⟩

